/-
Verification of the TMR adaptive-mesh-refinement core (quadtree/octree
forest library).  The development shallowly embeds:

* the `TMRIndexWeight` sort-and-merge helper (src/examples/triangle/Makefile
  concatenation, TMRBase.h section, `uniqueSort` / `compare_weights`);
* the Cython `QuadrantArray` / `OctantArray` accessors and the
  `QuadForest.createMeshConn` reshaping loop (src/tmr/TMR.pyx);
* the quadtree forest operations (refine / balance / coarsen / repartition /
  node numbering).  The C++ bodies of those operations are not part of the
  sources at hand (only `TMRForrest.h` declarations and the Python bindings
  are), so they are modelled from the specification, as flagged on each
  definition.
-/
import Mathlib

set_option maxHeartbeats 1000000

/-! ### Octant / Quadrant value types (src/tmr/TMR.pyx, `Quadrant`, `Octant`) -/

/-- Quadrant record: the fields mirrored by the Cython `Quadrant` class
(`x`, `y`, `level`, `face`, `tag`). -/
structure TMRQuadrant where
  x : Int
  y : Int
  level : Int
  face : Int
  tag : Int
deriving DecidableEq, Inhabited

/-- Octant record: the fields mirrored by the Cython `Octant` class
(`x`, `y`, `z`, `level`, `block`, `tag`). -/
structure TMROctant where
  x : Int
  y : Int
  z : Int
  level : Int
  block : Int
  tag : Int
deriving DecidableEq, Inhabited

/-- Embedding of `QuadrantArray.__getitem__` (TMR.pyx lines 987-1000): the
stored array is read, an index outside `[0, size)` raises `IndexError`, and
otherwise a fresh `Quadrant` is built whose five fields copy the stored
entry.  The second component is the array state after the call. -/
def quadrantArrayGetItem (arr : List TMRQuadrant) (k : Int) :
    Except String TMRQuadrant × List TMRQuadrant :=
  if k < 0 ∨ (arr.length : Int) ≤ k then
    (Except.error "Quadrant array index out of range", arr)
  else
    let a := arr.getD k.toNat default
    (Except.ok { x := a.x, y := a.y, level := a.level, face := a.face,
                 tag := a.tag }, arr)

/-- Embedding of `QuadrantArray.__setitem__` (TMR.pyx lines 1002-1014): an
index outside `[0, size)` raises `IndexError`; otherwise the five fields of
entry `k` are overwritten from the argument. -/
def quadrantArraySetItem (arr : List TMRQuadrant) (k : Int) (q : TMRQuadrant) :
    Except String Unit × List TMRQuadrant :=
  if k < 0 ∨ (arr.length : Int) ≤ k then
    (Except.error "Quadrant array index out of range", arr)
  else
    (Except.ok (), arr.set k.toNat
      { x := q.x, y := q.y, level := q.level, face := q.face, tag := q.tag })

/-- Embedding of `OctantArray.__getitem__` (TMR.pyx lines 1227-1241). -/
def octantArrayGetItem (arr : List TMROctant) (k : Int) :
    Except String TMROctant × List TMROctant :=
  if k < 0 ∨ (arr.length : Int) ≤ k then
    (Except.error "Octant array index out of range", arr)
  else
    let a := arr.getD k.toNat default
    (Except.ok { x := a.x, y := a.y, z := a.z, level := a.level,
                 block := a.block, tag := a.tag }, arr)

/-- Embedding of `OctantArray.__setitem__` (TMR.pyx lines 1243-1256). -/
def octantArraySetItem (arr : List TMROctant) (k : Int) (oc : TMROctant) :
    Except String Unit × List TMROctant :=
  if k < 0 ∨ (arr.length : Int) ≤ k then
    (Except.error "Octant array index out of range", arr)
  else
    (Except.ok (), arr.set k.toNat
      { x := oc.x, y := oc.y, z := oc.z, level := oc.level,
        block := oc.block, tag := oc.tag })

/-! ### TMRIndexWeight (TMRBase.h) -/

/-- Index/weight pair used by the interpolation and restriction operators
(class `TMRIndexWeight` in TMRBase.h). -/
structure TMRIndexWeight where
  index : Int
  weight : ℚ
deriving DecidableEq

/-- Reduction of an integer to the 32-bit two's-complement range
`[-2^31, 2^31)`, the value a wrapped C `int` computation lands on. -/
def wrap32 (n : Int) : Int :=
  (n + 2^31) % 2^32 - 2^31

/-- Embedding of `TMRIndexWeight::compare_weights`: the C comparator
returns the `int` difference `A->index - B->index`; both indices are
32-bit `int`s and the subtraction wraps modulo `2^32`, so for index
differences of magnitude `2^31` or more the returned sign is wrong. -/
def TMRIndexWeight.compare_weights (a b : TMRIndexWeight) : Int :=
  wrap32 (a.index - b.index)

/-- Non-strict order induced by `compare_weights` (comparator result at most
zero), used as the qsort ordering. -/
def iwLE (a b : TMRIndexWeight) : Prop :=
  TMRIndexWeight.compare_weights a b ≤ 0

instance : DecidableRel iwLE :=
  fun a b => inferInstanceAs (Decidable (TMRIndexWeight.compare_weights a b ≤ 0))

/-- The index order the comparator is meant to implement, realised by
`compare_weights` exactly when the subtraction does not wrap. -/
def iwLEexact (a b : TMRIndexWeight) : Prop :=
  a.index ≤ b.index

instance : DecidableRel iwLEexact :=
  fun a b => inferInstanceAs (Decidable (a.index ≤ b.index))

instance : IsTotal TMRIndexWeight iwLEexact :=
  ⟨by intro a b; unfold iwLEexact; omega⟩

instance : IsTrans TMRIndexWeight iwLEexact :=
  ⟨by intro a b c; unfold iwLEexact; omega⟩

/-- Embedding of the duplicate-merging loop of `TMRIndexWeight::uniqueSort`
(TMRBase.h): `cur` is the entry held at write position `j`; while the next
entry carries the same index its weight is accumulated into `cur`, and on an
index change `cur` is emitted. -/
def uniqMergeAux (cur : TMRIndexWeight) : List TMRIndexWeight → List TMRIndexWeight
  | [] => [cur]
  | b :: rest =>
    if cur.index = b.index then
      uniqMergeAux { index := cur.index, weight := cur.weight + b.weight } rest
    else
      cur :: uniqMergeAux b rest

/-- The merging pass of `uniqueSort` applied to the already-sorted array. -/
def uniqMerge : List TMRIndexWeight → List TMRIndexWeight
  | [] => []
  | a :: rest => uniqMergeAux a rest

/-- Embedding of `TMRIndexWeight::uniqueSort` (TMRBase.h): sort the array
with the index-only comparator, then merge runs of equal indices by summing
their weights; the returned list is the first `j` entries of the array. -/
def TMRIndexWeight.uniqueSort (l : List TMRIndexWeight) : List TMRIndexWeight :=
  uniqMerge (List.insertionSort iwLE l)

/-- Embedding of `QuadForest.createMeshConn` (TMR.pyx lines 1154-1178): the
flat connectivity array returned by the C++ layer is reshaped into one row
of `order * order` entries per element; the `order == 2` branch copies
`conn[4*i .. 4*i+3]` into row `i`, and the `order == 3` branch copies
`conn[4*i .. 4*i+8]` into row `i` (rows of any other order stay at the
`np.zeros` initialisation). -/
def createMeshConnPy (order nelems : ℕ) (conn : ℕ → ℤ) : List (List ℤ) :=
  (List.range nelems).map (fun i =>
    if order = 2 then
      [conn (4*i), conn (4*i+1), conn (4*i+2), conn (4*i+3)]
    else if order = 3 then
      [conn (4*i), conn (4*i+1), conn (4*i+2), conn (4*i+3), conn (4*i+4),
       conn (4*i+5), conn (4*i+6), conn (4*i+7), conn (4*i+8)]
    else List.replicate (order*order) 0)

/-- Modelled from the spec: the 1D linear Lagrange basis on the parent edge,
nodes at parameters 0 and 1 (the weight code itself is in the C++
`createDepNodeConn`, which is not among the sources). -/
def lagrangeLinear (i : ℕ) (u : ℚ) : ℚ :=
  if i = 0 then 1 - u
  else if i = 1 then u
  else 0

/-- Modelled from the spec: the 1D quadratic Lagrange basis on the parent
edge, nodes at parameters 0, 1/2 and 1. -/
def lagrangeQuadratic (i : ℕ) (u : ℚ) : ℚ :=
  if i = 0 then ((u - 1/2) * (u - 1)) / (((0:ℚ) - 1/2) * ((0:ℚ) - 1))
  else if i = 1 then ((u - 0) * (u - 1)) / (((1/2:ℚ) - 0) * ((1/2:ℚ) - 1))
  else if i = 2 then ((u - 0) * (u - 1/2)) / (((1:ℚ) - 0) * ((1:ℚ) - 1/2))
  else 0

/-- Modelled from the spec: for order p = 2 a hanging node sits at the
midpoint `u = 1/2` of the parent edge; its weights over the two edge
endpoints are the linear trace shape functions there. -/
def depNodeWeightsP2 : List ℚ :=
  [lagrangeLinear 0 (1/2), lagrangeLinear 1 (1/2)]

/-- Modelled from the spec: for order p = 3 the spec prescribes the
quadratic Lagrange basis evaluated at the midpoint of the child edge
(`u = 1/4` of the parent edge), relative to the three independents on the
parent edge. -/
def depNodeWeightsP3 : List ℚ :=
  [lagrangeQuadratic 0 (1/4), lagrangeQuadratic 1 (1/4),
   lagrangeQuadratic 2 (1/4)]

/-! ### Quadtree forest model

The C++ bodies of `TMRQuadForest` / `TMROctForest` are not among the
sources (only the `TMRForrest.h` declarations and the Cython bindings
are), so the forest operations below are modelled from the specification
for a single block of the 2D quadtree analogue. -/

/-- Maximum refinement level, `TMR_MAX_LEVEL` in TMRBase.h. -/
def TMR_MAX_LEVEL : Nat := 30

/-- Side length of the root domain, `hmax = 2 ^ TMR_MAX_LEVEL`. -/
def hmax : Nat := 2 ^ TMR_MAX_LEVEL

/-- Side length of a quadrant at the given level,
`h = 2 ^ (TMR_MAX_LEVEL - level)`. -/
def hside (level : Nat) : Nat := 2 ^ (TMR_MAX_LEVEL - level)

/-- Modelled from the spec (section 3, data model): a quadrant of a single
block, with integer coordinates and a refinement level. -/
structure TMRQuad where
  x : Nat
  y : Nat
  level : Nat
deriving DecidableEq

/-- Side length of a quadrant. -/
def TMRQuad.h (q : TMRQuad) : Nat := hside q.level

/-- Modelled from the spec (section 4.1, `child(o,k)` for k in [0,4)): the
four children, offset by `((k and 1), (k shr 1) and 1) * h/2`. -/
def childList (q : TMRQuad) : List TMRQuad :=
  [⟨q.x, q.y, q.level + 1⟩,
   ⟨q.x + hside (q.level + 1), q.y, q.level + 1⟩,
   ⟨q.x, q.y + hside (q.level + 1), q.level + 1⟩,
   ⟨q.x + hside (q.level + 1), q.y + hside (q.level + 1), q.level + 1⟩]

/-- Modelled from the spec (section 4.1, `parent(o)`): the quadrant one
level coarser containing `o`; coordinates are rounded down to a multiple of
the parent side length. -/
def parentOf (c : TMRQuad) : TMRQuad :=
  ⟨c.x - c.x % (2 * hside c.level), c.y - c.y % (2 * hside c.level),
   c.level - 1⟩

/-- Two quadrants share a face (in 2D: a boundary segment of positive
length): they touch along a vertical or horizontal line and their
projections on the other axis overlap in an open interval. -/
def shareFace (a b : TMRQuad) : Prop :=
  ((a.x + a.h = b.x ∨ b.x + b.h = a.x) ∧ a.y < b.y + b.h ∧ b.y < a.y + a.h) ∨
  ((a.y + a.h = b.y ∨ b.y + b.h = a.y) ∧ a.x < b.x + b.h ∧ b.x < a.x + a.h)

instance (a b : TMRQuad) : Decidable (shareFace a b) := by
  unfold shareFace; infer_instance

/-- Two quadrants touch at exactly one corner point. -/
def shareCorner (a b : TMRQuad) : Prop :=
  (a.x + a.h = b.x ∨ b.x + b.h = a.x) ∧ (a.y + a.h = b.y ∨ b.y + b.h = a.y)

instance (a b : TMRQuad) : Decidable (shareCorner a b) := by
  unfold shareCorner; infer_instance

/-- Adjacency enforced by `balance`: across faces always, additionally
across corners when the `balance_corner` flag is set
(`TMRQuadForrest::balance(int balance_corner)` in TMRForrest.h). -/
def adjacentQuad (bc : Bool) (a b : TMRQuad) : Prop :=
  shareFace a b ∨ (bc = true ∧ shareCorner a b)

instance (bc : Bool) (a b : TMRQuad) : Decidable (adjacentQuad bc a b) := by
  unfold adjacentQuad; infer_instance

/-- Modelled from the spec (section 4.5, seed rule): leaf `b` requires
refinement when some leaf at least two levels finer is adjacent to it. -/
def needRefine (bc : Bool) (F : List TMRQuad) (b : TMRQuad) : Prop :=
  ∃ a ∈ F, adjacentQuad bc a b ∧ b.level + 2 ≤ a.level

instance (bc : Bool) (F : List TMRQuad) (b : TMRQuad) :
    Decidable (needRefine bc F b) := by
  unfold needRefine; infer_instance

/-- The 2:1 quiescence condition of a ripple round: no leaf requires
refinement (section 4.5, step 4: a round inserts nothing). -/
def isBalancedQuad (bc : Bool) (F : List TMRQuad) : Prop :=
  ∀ b ∈ F, ¬ needRefine bc F b

instance (bc : Bool) (F : List TMRQuad) : Decidable (isBalancedQuad bc F) := by
  unfold isBalancedQuad; infer_instance

/-- Modelled from the spec (section 4.5, net effect of steps 1, 2 and 5 on a
single block): one ripple round replaces every leaf that has an adjacent
leaf two or more levels finer by its four children. -/
def balanceStep (bc : Bool) (F : List TMRQuad) : List TMRQuad :=
  F.flatMap (fun b => if needRefine bc F b then childList b else [b])

/-- Modelled from the spec (section 4.5, step 4): ripple rounds iterate
until a full round inserts nothing; the fuel bounds the iteration. -/
def balanceQuad (bc : Bool) : Nat → List TMRQuad → List TMRQuad
  | 0, F => F
  | fuel + 1, F =>
    if isBalancedQuad bc F then F else balanceQuad bc fuel (balanceStep bc F)

/-- Modelled from the spec (section 4.4, `refine` with a null levels
argument, bound by `QuadForest.refine` / `OctForest.refine` in TMR.pyx):
every leaf is replaced by its four children. -/
def refineUniform (F : List TMRQuad) : List TMRQuad :=
  F.flatMap childList

/-- The distributed forest as a map from rank to owned leaves; `refine` is
executed by rank `r` alone and touches only that rank's leaves. -/
def refineForest (W : Nat → List TMRQuad) (r : Nat) : Nat → List TMRQuad :=
  fun s => if s = r then refineUniform (W s) else W s

/-- Modelled from the spec (section 4.2 `coarsen()` and the section 8
round-trip law): every complete group of four siblings collapses into its
parent, other leaves are kept, and duplicates are removed. -/
def coarsenQuad (F : List TMRQuad) : List TMRQuad :=
  (F.map (fun c =>
    if 0 < c.level ∧ ∀ s ∈ childList (parentOf c), s ∈ F then parentOf c
    else c)).dedup

/-- Modelled from the spec (section 4.7, step 4, bound by `getNodeRange` in
TMR.pyx): the per-rank prefix-sum partition of the global node numbering
over the per-rank owned-node counts. -/
def getOwnedNodeRange (counts : List Nat) : List Nat :=
  (List.range (counts.length + 1)).map (fun r => (counts.take r).sum)

/-- Modelled from the spec (section 4.7, step 4): rank after rank, each
owner assigns the next contiguous block of global node indices. -/
def assignNodes : Nat → List Nat → List Nat
  | _, [] => []
  | o, c :: cs => List.range' o c ++ assignNodes (o + c) cs

/-- Modelled from the spec (section 4.6): the per-rank leaf counts of the
space-filling-curve slicing — as equal as possible, the remainder spread
over the first `T mod N` ranks. -/
def sliceCounts (T N : Nat) : List Nat :=
  (List.range N).map (fun r => T / N + if r < T % N then 1 else 0)

/-- Cut a leaf list into consecutive slices of the given sizes. -/
def splitSlices : List Nat → List TMRQuad → List (List TMRQuad)
  | [], _ => []
  | c :: cs, L => L.take c :: splitSlices cs (L.drop c)

/-- Modelled from the spec (section 4.6, bound by `repartition` in TMR.pyx):
with the global leaf list in space-filling-curve order, rank `r` receives
the `r`-th contiguous slice. -/
def repartitionQuad (N : Nat) (L : List TMRQuad) : List (List TMRQuad) :=
  splitSlices (sliceCounts L.length N) L

/-- A small concrete forest exercising the balance model: three level-1
quarters, the fourth quarter refined once more and its south-west child
refined twice, so two ripple neighbours are two levels coarser. -/
def sampleForest : List TMRQuad :=
  [⟨0, 0, 1⟩, ⟨2^29, 0, 1⟩, ⟨0, 2^29, 1⟩,
   ⟨2^29 + 2^28, 2^29, 2⟩, ⟨2^29, 2^29 + 2^28, 2⟩,
   ⟨2^29 + 2^28, 2^29 + 2^28, 2⟩,
   ⟨2^29, 2^29, 3⟩, ⟨2^29 + 2^27, 2^29, 3⟩,
   ⟨2^29, 2^29 + 2^27, 3⟩, ⟨2^29 + 2^27, 2^29 + 2^27, 3⟩]

/-- A two-rank distributed forest used to exercise the locality of refine. -/
def sampleRanks : Nat → List TMRQuad :=
  fun s => if s = 0 then [⟨0, 0, 0⟩] else [⟨0, 0, 1⟩]

/-- Five leaves in space-filling-curve order used to exercise repartition. -/
def sampleLeaves : List TMRQuad :=
  [⟨0, 0, 1⟩, ⟨2^29, 0, 1⟩, ⟨0, 2^29, 1⟩, ⟨2^29, 2^29, 2⟩,
   ⟨2^29 + 2^28, 2^29, 2⟩]

/-! ### Properties of uniqueSort -/

theorem uniqMergeAux_sum (cur : TMRIndexWeight) (l : List TMRIndexWeight) :
    ((uniqMergeAux cur l).map TMRIndexWeight.weight).sum =
      cur.weight + (l.map TMRIndexWeight.weight).sum := by
  induction l generalizing cur with
  | nil => simp [uniqMergeAux]
  | cons b rest ih =>
    by_cases h : cur.index = b.index
    · simp only [uniqMergeAux, if_pos h, ih, List.map_cons, List.sum_cons]
      ring
    · simp only [uniqMergeAux, if_neg h, ih, List.map_cons, List.sum_cons]

theorem uniqMergeAux_index_mem (cur : TMRIndexWeight) (l : List TMRIndexWeight) :
    ∀ e ∈ uniqMergeAux cur l,
      e.index = cur.index ∨ e.index ∈ l.map TMRIndexWeight.index := by
  induction l generalizing cur with
  | nil =>
    intro e he
    simp only [uniqMergeAux, List.mem_singleton] at he
    left; rw [he]
  | cons b rest ih =>
    intro e he
    by_cases h : cur.index = b.index
    · rw [uniqMergeAux, if_pos h] at he
      rcases ih _ e he with h1 | h1
      · left; exact h1
      · right; simp [h1]
    · rw [uniqMergeAux, if_neg h] at he
      rcases List.mem_cons.mp he with h1 | h1
      · left; rw [h1]
      · rcases ih b e h1 with h2 | h2
        · right; simp [h2]
        · right; simp [h2]

theorem uniqMergeAux_toFinset (cur : TMRIndexWeight) (l : List TMRIndexWeight) :
    ((uniqMergeAux cur l).map TMRIndexWeight.index).toFinset =
      insert cur.index (l.map TMRIndexWeight.index).toFinset := by
  induction l generalizing cur with
  | nil => simp [uniqMergeAux]
  | cons b rest ih =>
    by_cases h : cur.index = b.index
    · rw [uniqMergeAux, if_pos h, ih]
      simp [h]
    · rw [uniqMergeAux, if_neg h]
      simp [ih]

theorem uniqMergeAux_pairwise (cur : TMRIndexWeight) (l : List TMRIndexWeight)
    (hs : List.Pairwise iwLEexact (cur :: l)) :
    List.Pairwise (fun a b : TMRIndexWeight => a.index < b.index)
      (uniqMergeAux cur l) := by
  induction l generalizing cur with
  | nil => simp [uniqMergeAux]
  | cons b rest ih =>
    rcases List.pairwise_cons.mp hs with ⟨hcur, htail⟩
    rcases List.pairwise_cons.mp htail with ⟨hb, hrest⟩
    by_cases h : cur.index = b.index
    · rw [uniqMergeAux, if_pos h]
      apply ih
      rw [List.pairwise_cons]
      constructor
      · intro x hx
        have hx2 := hcur x (List.mem_cons_of_mem b hx)
        simp only [iwLEexact] at hx2 ⊢
        omega
      · exact hrest
    · rw [uniqMergeAux, if_neg h]
      rw [List.pairwise_cons]
      constructor
      · intro e he
        have hcb := hcur b (List.mem_cons_self b rest)
        simp only [iwLEexact] at hcb
        rcases uniqMergeAux_index_mem b rest e he with h1 | h1
        · omega
        · rcases List.mem_map.mp h1 with ⟨y, hy, hyi⟩
          have := hb y hy
          simp only [iwLEexact] at this
          omega
      · exact ih b htail

theorem uniqMergeAux_length (cur : TMRIndexWeight) (l : List TMRIndexWeight) :
    (uniqMergeAux cur l).length ≤ l.length + 1 := by
  induction l generalizing cur with
  | nil => simp [uniqMergeAux]
  | cons b rest ih =>
    by_cases h : cur.index = b.index
    · rw [uniqMergeAux, if_pos h]
      have := ih { index := cur.index, weight := cur.weight + b.weight }
      simp only [List.length_cons]
      omega
    · rw [uniqMergeAux, if_neg h]
      have := ih b
      simp only [List.length_cons]
      omega

theorem uniqMergeAux_weight (cur : TMRIndexWeight) (l : List TMRIndexWeight)
    (hs : List.Pairwise iwLEexact (cur :: l)) :
    ∀ e ∈ uniqMergeAux cur l,
      e.weight = (((cur :: l).filter
        (fun iw => decide (iw.index = e.index))).map TMRIndexWeight.weight).sum := by
  induction l generalizing cur with
  | nil =>
    intro e he
    simp only [uniqMergeAux, List.mem_singleton] at he
    subst he
    simp [List.filter_cons]
  | cons b rest ih =>
    rcases List.pairwise_cons.mp hs with ⟨hcur, htail⟩
    rcases List.pairwise_cons.mp htail with ⟨hb, hrest⟩
    intro e he
    by_cases h : cur.index = b.index
    · rw [uniqMergeAux, if_pos h] at he
      have hs2 : List.Pairwise iwLEexact
          ({ index := cur.index, weight := cur.weight + b.weight } :: rest) := by
        rw [List.pairwise_cons]
        refine ⟨?_, hrest⟩
        intro x hx
        have hx2 := hcur x (List.mem_cons_of_mem b hx)
        simp only [iwLEexact] at hx2 ⊢
        omega
      have hw := ih _ hs2 e he
      rw [hw]
      by_cases hei : cur.index = e.index
      · simp [List.filter_cons, hei, ← h]
        ring
      · have hbi : ¬ b.index = e.index := by omega
        simp [List.filter_cons, hei, hbi]
    · rw [uniqMergeAux, if_neg h] at he
      have hcb := hcur b (List.mem_cons_self b rest)
      simp only [iwLEexact] at hcb
      rcases List.mem_cons.mp he with h1 | h1
      · subst h1
        have hnil : rest.filter (fun iw => decide (iw.index = e.index)) = [] := by
          rw [List.filter_eq_nil_iff]
          intro x hx
          have := hb x hx
          simp only [iwLEexact] at this
          simp only [decide_eq_true_eq]
          omega
        have hbi : ¬ b.index = e.index := by omega
        simp [List.filter_cons, hbi, hnil]
      · have hw := ih b htail e h1
        rw [hw]
        have hlt : cur.index < e.index := by
          rcases uniqMergeAux_index_mem b rest e h1 with h2 | h2
          · omega
          · rcases List.mem_map.mp h2 with ⟨y, hy, hyi⟩
            have := hb y hy
            simp only [iwLEexact] at this
            omega
        have hci : ¬ cur.index = e.index := by omega
        simp [List.filter_cons, hci]

theorem wrap32_eq (d : Int) (h1 : -(2^31) ≤ d) (h2 : d < 2^31) :
    wrap32 d = d := by
  unfold wrap32
  have h3 : (0:Int) ≤ d + 2^31 := by omega
  have h4 : d + 2^31 < 2^32 := by omega
  rw [Int.emod_eq_of_lt h3 h4]
  omega

theorem orderedInsert_congr (r s : TMRIndexWeight → TMRIndexWeight → Prop)
    [DecidableRel r] [DecidableRel s] (a : TMRIndexWeight)
    (M : List TMRIndexWeight) (h : ∀ b ∈ M, (r a b ↔ s a b)) :
    List.orderedInsert r a M = List.orderedInsert s a M := by
  induction M with
  | nil => rfl
  | cons b M ih =>
    have hb := h b (List.mem_cons_self b M)
    by_cases hr : r a b
    · rw [List.orderedInsert, List.orderedInsert, if_pos hr, if_pos (hb.mp hr)]
    · rw [List.orderedInsert, List.orderedInsert, if_neg hr,
        if_neg (fun hs => hr (hb.mpr hs)),
        ih (fun c hc => h c (List.mem_cons_of_mem b hc))]

theorem insertionSort_congr (r s : TMRIndexWeight → TMRIndexWeight → Prop)
    [DecidableRel r] [DecidableRel s] (l : List TMRIndexWeight)
    (h : ∀ a ∈ l, ∀ b ∈ l, (r a b ↔ s a b)) :
    List.insertionSort r l = List.insertionSort s l := by
  induction l with
  | nil => rfl
  | cons a t ih =>
    rw [List.insertionSort, List.insertionSort,
      ih (fun x hx y hy =>
        h x (List.mem_cons_of_mem a hx) y (List.mem_cons_of_mem a hy))]
    apply orderedInsert_congr
    intro b hb
    exact h a (List.mem_cons_self a t) b
      (List.mem_cons_of_mem a ((List.perm_insertionSort s t).subset hb))

/-- C9 counterexample: both indices `2^30` and `-2^30 - 1` are representable
32-bit `int`s, but their difference `2^31 + 1` wraps, so `compare_weights`
returns a negative value for the larger index and `uniqueSort` leaves the
two entries in the wrong order: the output indices are not strictly
increasing, refuting the claim quantified over every input array. -/
theorem C9_counterexample :
    (-(2^31) ≤ (-1073741825 : Int) ∧ (1073741824 : Int) < 2^31) ∧
    TMRIndexWeight.compare_weights ⟨1073741824, 1⟩ ⟨-1073741825, 1⟩
      = -2147483647 ∧
    TMRIndexWeight.uniqueSort [⟨1073741824, 1⟩, ⟨-1073741825, 1⟩]
      = [⟨1073741824, 1⟩, ⟨-1073741825, 1⟩] ∧
    ¬ List.Pairwise (fun a b : TMRIndexWeight => a.index < b.index)
        (TMRIndexWeight.uniqueSort [⟨1073741824, 1⟩, ⟨-1073741825, 1⟩]) := by
  refine ⟨by norm_num, by rfl, by rfl, ?_⟩
  have he : TMRIndexWeight.uniqueSort [⟨1073741824, 1⟩, ⟨-1073741825, 1⟩]
      = [⟨1073741824, 1⟩, ⟨-1073741825, 1⟩] := rfl
  rw [he]
  intro h
  have h1 := (List.pairwise_cons.mp h).1 ⟨-1073741825, 1⟩
    (List.mem_singleton_self _)
  have h2 : (1073741824 : Int) < (-1073741825 : Int) := h1
  omega

/-- C9 (amended): for every input array all of whose pairwise index
differences fit in a 32-bit `int` — so no `compare_weights` call wraps —
`TMRIndexWeight::uniqueSort` returns a length `j ≤ size` such that the
first `j` entries have strictly increasing index values containing exactly
the distinct indices of the input, the weight stored for each index is the
sum of all input weights carrying that index, and the total weight sum is
unchanged. -/
theorem C9_uniqueSort_spec (l : List TMRIndexWeight)
    (hov : ∀ a ∈ l, ∀ b ∈ l,
      -(2^31) ≤ a.index - b.index ∧ a.index - b.index < 2^31) :
    List.Pairwise (fun a b : TMRIndexWeight => a.index < b.index)
      (TMRIndexWeight.uniqueSort l) ∧
    ((TMRIndexWeight.uniqueSort l).map TMRIndexWeight.index).toFinset
      = (l.map TMRIndexWeight.index).toFinset ∧
    (∀ e ∈ TMRIndexWeight.uniqueSort l,
      e.weight = ((l.filter
        (fun iw => decide (iw.index = e.index))).map TMRIndexWeight.weight).sum) ∧
    ((TMRIndexWeight.uniqueSort l).map TMRIndexWeight.weight).sum
      = (l.map TMRIndexWeight.weight).sum ∧
    (TMRIndexWeight.uniqueSort l).length ≤ l.length := by
  have hagree : ∀ a ∈ l, ∀ b ∈ l, (iwLE a b ↔ iwLEexact a b) := by
    intro a ha b hb
    have hd := hov a ha b hb
    unfold iwLE TMRIndexWeight.compare_weights iwLEexact
    rw [wrap32_eq _ hd.1 hd.2]
    omega
  have hus0 : TMRIndexWeight.uniqueSort l
      = uniqMerge (List.insertionSort iwLEexact l) := by
    rw [TMRIndexWeight.uniqueSort,
      insertionSort_congr iwLE iwLEexact l hagree]
  have hp := List.perm_insertionSort iwLEexact l
  have hsort := List.sorted_insertionSort iwLEexact l
  rcases hq : List.insertionSort iwLEexact l with _ | ⟨a, rest⟩
  · rw [hq] at hp
    have : l = [] := hp.symm.eq_nil
    subst this
    simp [TMRIndexWeight.uniqueSort, uniqMerge, List.insertionSort]
  · rw [hq] at hp hsort
    have hus : TMRIndexWeight.uniqueSort l = uniqMergeAux a rest := by
      rw [hus0, hq, uniqMerge]
    rw [hus]
    refine ⟨uniqMergeAux_pairwise a rest hsort, ?_, ?_, ?_, ?_⟩
    · rw [uniqMergeAux_toFinset a rest]
      have := List.toFinset_eq_of_perm _ _ (hp.map TMRIndexWeight.index)
      rw [← this]
      simp
    · intro e he
      rw [uniqMergeAux_weight a rest hsort e he]
      exact ((hp.filter _).map TMRIndexWeight.weight).sum_eq
    · rw [uniqMergeAux_sum a rest]
      have := (hp.map TMRIndexWeight.weight).sum_eq
      simp only [List.map_cons, List.sum_cons] at this
      exact this
    · have h1 := uniqMergeAux_length a rest
      have h2 := hp.length_eq
      simp only [List.length_cons] at h2
      omega

/-! ### Array indexing (claim C10) -/

/-- C10: indexing a `QuadrantArray` or `OctantArray` wrapper raises
`IndexError` exactly when the index lies outside `[0, size)`; for an
in-range index, `__getitem__` returns a quadrant/octant whose fields equal
those of the stored entry, and the underlying array is unchanged. -/
theorem C10_array_indexing (qa : List TMRQuadrant) (oa : List TMROctant)
    (k : Int) (q : TMRQuadrant) (oc : TMROctant) :
    ((quadrantArrayGetItem qa k).1.isOk = true ↔ 0 ≤ k ∧ k < qa.length) ∧
    ((quadrantArrayGetItem qa k).2 = qa) ∧
    (0 ≤ k → k < qa.length →
      (quadrantArrayGetItem qa k).1 = Except.ok (qa.getD k.toNat default)) ∧
    ((quadrantArraySetItem qa k q).1.isOk = true ↔ 0 ≤ k ∧ k < qa.length) ∧
    ((octantArrayGetItem oa k).1.isOk = true ↔ 0 ≤ k ∧ k < oa.length) ∧
    ((octantArrayGetItem oa k).2 = oa) ∧
    (0 ≤ k → k < oa.length →
      (octantArrayGetItem oa k).1 = Except.ok (oa.getD k.toNat default)) ∧
    ((octantArraySetItem oa k oc).1.isOk = true ↔ 0 ≤ k ∧ k < oa.length) := by
  refine ⟨?_, ?_, ?_, ?_, ?_, ?_, ?_, ?_⟩
  · by_cases h : k < 0 ∨ (qa.length : Int) ≤ k
    · simp [quadrantArrayGetItem, h, Except.isOk, Except.toBool]
      omega
    · simp [quadrantArrayGetItem, h, Except.isOk, Except.toBool]
      omega
  · by_cases h : k < 0 ∨ (qa.length : Int) ≤ k
    · simp [quadrantArrayGetItem, h]
    · simp [quadrantArrayGetItem, h]
  · intro h1 h2
    have h : ¬ (k < 0 ∨ (qa.length : Int) ≤ k) := by omega
    simp [quadrantArrayGetItem, h]
  · by_cases h : k < 0 ∨ (qa.length : Int) ≤ k
    · simp [quadrantArraySetItem, h, Except.isOk, Except.toBool]
      omega
    · simp [quadrantArraySetItem, h, Except.isOk, Except.toBool]
      omega
  · by_cases h : k < 0 ∨ (oa.length : Int) ≤ k
    · simp [octantArrayGetItem, h, Except.isOk, Except.toBool]
      omega
    · simp [octantArrayGetItem, h, Except.isOk, Except.toBool]
      omega
  · by_cases h : k < 0 ∨ (oa.length : Int) ≤ k
    · simp [octantArrayGetItem, h]
    · simp [octantArrayGetItem, h]
  · intro h1 h2
    have h : ¬ (k < 0 ∨ (oa.length : Int) ≤ k) := by omega
    simp [octantArrayGetItem, h]
  · by_cases h : k < 0 ∨ (oa.length : Int) ≤ k
    · simp [octantArraySetItem, h, Except.isOk, Except.toBool]
      omega
    · simp [octantArraySetItem, h, Except.isOk, Except.toBool]
      omega

/-- Witness for C10 at a concrete one-element array and index 0. -/
theorem C10_witness :
    (0 : Int) ≤ 0 ∧ (0 : Int) < ([⟨1, 2, 3, 4, 5⟩] : List TMRQuadrant).length ∧
    (quadrantArrayGetItem [⟨1, 2, 3, 4, 5⟩] 0).1 =
      Except.ok (([⟨1, 2, 3, 4, 5⟩] : List TMRQuadrant).getD 0 default) ∧
    ((octantArrayGetItem [⟨1, 2, 3, 4, 5, 6⟩] 7).1.isOk = true ↔
      0 ≤ (7 : Int) ∧ (7 : Int) < ([⟨1, 2, 3, 4, 5, 6⟩] : List TMROctant).length) :=
  ⟨by decide, by decide,
    (C10_array_indexing [⟨1, 2, 3, 4, 5⟩] [⟨1, 2, 3, 4, 5, 6⟩] 0 default default).2.2.1
      (by decide) (by decide),
    (C10_array_indexing [⟨1, 2, 3, 4, 5⟩] [⟨1, 2, 3, 4, 5, 6⟩] 7 default default).2.2.2.2.1⟩

/-! ### createMeshConn reshaping (claim C2) -/

/-- C2 (code-bug evidence): with order `p = 3`, two local elements and the
flat connectivity array `conn = [0, 1, ..., 17]` (nine global node indices
per element), the Cython reshaping hands element 1 the entries
`conn[4 .. 13)` — stride 4, inherited from the order-2 branch — instead of
the entries `conn[9 .. 18)` that hold its nine node indices. -/
theorem C2_meshconn_order3_stride :
    createMeshConnPy 3 2 (fun n => (n : ℤ)) =
      [[0, 1, 2, 3, 4, 5, 6, 7, 8], [4, 5, 6, 7, 8, 9, 10, 11, 12]] ∧
    ([4, 5, 6, 7, 8, 9, 10, 11, 12] : List ℤ) ≠
      [9, 10, 11, 12, 13, 14, 15, 16, 17] := by
  constructor
  · rfl
  · decide

/-! ### Dependent-node interpolation weights (claim C3) -/

/-- C3 counterexample: the order-3 dependent-node weights are
`[3/8, 3/4, -1/8]`, and the third weight is negative, so the claim that
every weight lies in `[0, 1]` for both supported orders is false. -/
theorem C3_counterexample :
    depNodeWeightsP3 = [3/8, 3/4, -(1/8)] ∧
    ¬ ((0:ℚ) ≤ -(1/8) ∧ (-(1/8):ℚ) ≤ 1) := by
  constructor
  · norm_num [depNodeWeightsP3, lagrangeQuadratic]
  · norm_num

/-- C3 amended: for every dependent node the weights sum to 1 for both
supported orders; the individual weights lie in `[0, 1]` for p = 2, while
for p = 3 they are `3/8, 3/4, -1/8` and lie in `[-1/8, 3/4]`. -/
theorem C3_amended :
    depNodeWeightsP2 = [1/2, 1/2] ∧
    depNodeWeightsP3 = [3/8, 3/4, -(1/8)] ∧
    depNodeWeightsP2.sum = 1 ∧
    depNodeWeightsP3.sum = 1 ∧
    ((0:ℚ) ≤ 1/2 ∧ (1/2:ℚ) ≤ 1) ∧
    ((-(1/8):ℚ) ≤ 3/8 ∧ (3/8:ℚ) ≤ 3/4 ∧ (-(1/8):ℚ) ≤ -(1/8)) := by
  refine ⟨?_, ?_, ?_, ?_, ?_, ?_⟩ <;>
    norm_num [depNodeWeightsP2, depNodeWeightsP3, lagrangeLinear,
      lagrangeQuadratic]

/-! ### Quadtree balance (claims C1 and C4) -/

theorem shareFace_symm (a b : TMRQuad) (h : shareFace a b) : shareFace b a := by
  unfold shareFace at h ⊢
  omega

theorem shareCorner_symm (a b : TMRQuad) (h : shareCorner a b) :
    shareCorner b a := by
  unfold shareCorner at h ⊢
  omega

theorem adjacentQuad_symm (bc : Bool) (a b : TMRQuad)
    (h : adjacentQuad bc a b) : adjacentQuad bc b a := by
  rcases h with h | ⟨hbc, h⟩
  · exact Or.inl (shareFace_symm a b h)
  · exact Or.inr ⟨hbc, shareCorner_symm a b h⟩

/-- C1: after `balance` completes (a ripple round inserts nothing), every
pair of adjacent leaves differs in level by at most 1 — across faces
always, and also across corners when the `balance_corner` flag requests
corner balancing. -/
theorem C1_balance_two_to_one (bc : Bool) (fuel : Nat) (F : List TMRQuad)
    (hq : isBalancedQuad bc (balanceQuad bc fuel F)) :
    ∀ a ∈ balanceQuad bc fuel F, ∀ b ∈ balanceQuad bc fuel F,
      adjacentQuad bc a b → a.level ≤ b.level + 1 ∧ b.level ≤ a.level + 1 := by
  intro a ha b hb hadj
  constructor
  · by_contra hcon
    exact hq b hb ⟨a, ha, hadj, by omega⟩
  · by_contra hcon
    exact hq a ha ⟨b, hb, adjacentQuad_symm bc a b hadj, by omega⟩

/-- Witness for C1: the sample forest reaches quiescence within 3 rounds of
corner balancing, and the bound holds at the two adjacent leaves of levels
3 and 2 that survive balancing. -/
theorem C1_witness :
    isBalancedQuad true (balanceQuad true 3 sampleForest) ∧
    (adjacentQuad true ⟨2^29 + 2^27, 2^29, 3⟩ ⟨2^29 + 2^28, 2^29, 2⟩ →
      3 ≤ 2 + 1 ∧ 2 ≤ 3 + 1) :=
  ⟨by decide,
   C1_balance_two_to_one true 3 sampleForest (by decide)
     ⟨2^29 + 2^27, 2^29, 3⟩ (by decide) ⟨2^29 + 2^28, 2^29, 2⟩ (by decide)⟩

theorem balanceQuad_of_isBalanced (bc : Bool) (F : List TMRQuad)
    (h : isBalancedQuad bc F) : ∀ fuel, balanceQuad bc fuel F = F := by
  intro fuel
  cases fuel with
  | zero => rfl
  | succ n => rw [balanceQuad, if_pos h]

/-- C4: `balance` is idempotent — once a call has reached quiescence,
running balance again with the same flag returns the same forest, so the
leaf count and the leaf set are unchanged by the second call. -/
theorem C4_balance_idempotent (bc : Bool) (f1 f2 : Nat) (F : List TMRQuad)
    (h : isBalancedQuad bc (balanceQuad bc f1 F)) :
    balanceQuad bc f2 (balanceQuad bc f1 F) = balanceQuad bc f1 F ∧
    (balanceQuad bc f2 (balanceQuad bc f1 F)).length
      = (balanceQuad bc f1 F).length ∧
    (∀ q, q ∈ balanceQuad bc f2 (balanceQuad bc f1 F) ↔
      q ∈ balanceQuad bc f1 F) := by
  have heq := balanceQuad_of_isBalanced bc (balanceQuad bc f1 F) h f2
  exact ⟨heq, by rw [heq], fun q => by rw [heq]⟩

/-- Witness for C4 at the sample forest. -/
theorem C4_witness :
    isBalancedQuad true (balanceQuad true 3 sampleForest) ∧
    balanceQuad true 2 (balanceQuad true 3 sampleForest)
      = balanceQuad true 3 sampleForest :=
  ⟨by decide, (C4_balance_idempotent true 3 2 sampleForest (by decide)).1⟩

/-! ### Refine and coarsen (claims C5 and C8) -/

theorem childList_level (q c : TMRQuad) (hc : c ∈ childList q) :
    c.level = q.level + 1 := by
  simp only [childList, List.mem_cons, List.mem_singleton,
    List.not_mem_nil, or_false] at hc
  rcases hc with h | h | h | h <;> subst h <;> rfl

theorem hside_pos (l : Nat) : 0 < hside l :=
  pow_pos (by norm_num) _

theorem hside_succ (l : Nat) (h : l < TMR_MAX_LEVEL) :
    hside l = 2 * hside (l + 1) := by
  unfold hside TMR_MAX_LEVEL at *
  have h30 : 30 - l = (30 - (l + 1)) + 1 := by omega
  rw [h30, pow_succ]
  ring

theorem sub_mod_offset (H hp v d : Nat) (hH : H = 2 * hp) (hpos : 0 < hp)
    (hv : H ∣ v) (hd : d = 0 ∨ d = hp) :
    (v + d) - (v + d) % H = v := by
  obtain ⟨m, hm⟩ := hv
  have hmod : v % H = 0 := by
    rw [hm]; exact Nat.mul_mod_right _ _
  have hdlt : d < H := by omega
  have hdm : d % H = d := Nat.mod_eq_of_lt hdlt
  have hsum : (v + d) % H = d := by
    rw [Nat.add_mod, hmod, Nat.zero_add, hdm, hdm]
  omega

theorem refineUniform_length (F : List TMRQuad) :
    (refineUniform F).length = 4 * F.length := by
  induction F with
  | nil => rfl
  | cons q t ih =>
    simp only [refineUniform, List.flatMap_cons, List.length_append] at ih ⊢
    simp only [childList, List.length_cons, List.length_nil]
    omega

theorem parentOf_child (q : TMRQuad) (hl : q.level < TMR_MAX_LEVEL)
    (hx : hside q.level ∣ q.x) (hy : hside q.level ∣ q.y) :
    ∀ c ∈ childList q, parentOf c = q := by
  obtain ⟨qx, qy, ql⟩ := q
  dsimp only at hl hx hy
  have hs : hside ql = 2 * hside (ql + 1) := hside_succ ql hl
  have hpos : 0 < hside (ql + 1) := hside_pos _
  intro c hc
  simp only [childList, List.mem_cons, List.mem_singleton,
    List.not_mem_nil, or_false] at hc
  rcases hc with h | h | h | h <;> subst h <;>
    simp only [parentOf, TMRQuad.mk.injEq] <;>
    refine ⟨?_, ?_, by omega⟩ <;>
    first
    | simpa using sub_mod_offset (2 * hside (ql + 1)) (hside (ql + 1)) qx 0
        rfl hpos (hs ▸ hx) (Or.inl rfl)
    | simpa using sub_mod_offset (2 * hside (ql + 1)) (hside (ql + 1)) qy 0
        rfl hpos (hs ▸ hy) (Or.inl rfl)
    | simpa using sub_mod_offset (2 * hside (ql + 1)) (hside (ql + 1)) qx
        (hside (ql + 1)) rfl hpos (hs ▸ hx) (Or.inr rfl)
    | simpa using sub_mod_offset (2 * hside (ql + 1)) (hside (ql + 1)) qy
        (hside (ql + 1)) rfl hpos (hs ▸ hy) (Or.inr rfl)

/-- C5: refining every leaf uniformly by one level and then coarsening
recovers exactly the original forest: the leaf set of
`coarsen(refine_uniform(F, 1))` equals the leaf set of `F`. -/
theorem C5_coarsen_refine_roundtrip (F : List TMRQuad)
    (hv : ∀ q ∈ F, q.level < TMR_MAX_LEVEL ∧
      hside q.level ∣ q.x ∧ hside q.level ∣ q.y) :
    ∀ q, q ∈ coarsenQuad (refineUniform F) ↔ q ∈ F := by
  intro q
  unfold coarsenQuad
  rw [List.mem_dedup, List.mem_map]
  constructor
  · rintro ⟨c, hc, hfc⟩
    rw [refineUniform, List.mem_flatMap] at hc
    obtain ⟨p, hp, hcp⟩ := hc
    obtain ⟨hlev, hx, hy⟩ := hv p hp
    have hpc : parentOf c = p := parentOf_child p hlev hx hy c hcp
    have hcl : 0 < c.level := by
      have := childList_level p c hcp
      omega
    have hsib : ∀ s ∈ childList (parentOf c), s ∈ refineUniform F := by
      intro s hs
      rw [hpc] at hs
      rw [refineUniform, List.mem_flatMap]
      exact ⟨p, hp, hs⟩
    rw [if_pos ⟨hcl, hsib⟩] at hfc
    rw [← hfc, hpc]
    exact hp
  · intro hqF
    obtain ⟨hlev, hx, hy⟩ := hv q hqF
    have hc0 : (⟨q.x, q.y, q.level + 1⟩ : TMRQuad) ∈ childList q := by
      simp [childList]
    refine ⟨⟨q.x, q.y, q.level + 1⟩, ?_, ?_⟩
    · rw [refineUniform, List.mem_flatMap]
      exact ⟨q, hqF, hc0⟩
    · have hpc : parentOf ⟨q.x, q.y, q.level + 1⟩ = q :=
        parentOf_child q hlev hx hy _ hc0
      have hcl : 0 < (⟨q.x, q.y, q.level + 1⟩ : TMRQuad).level :=
        Nat.succ_pos _
      have hsib : ∀ s ∈ childList (parentOf ⟨q.x, q.y, q.level + 1⟩),
          s ∈ refineUniform F := by
        rw [hpc]
        intro s hs
        rw [refineUniform, List.mem_flatMap]
        exact ⟨q, hqF, hs⟩
      rw [if_pos ⟨hcl, hsib⟩, hpc]

/-- Witness for C5 at the one-leaf root forest. -/
theorem C5_witness :
    (∀ q ∈ ([⟨0, 0, 0⟩] : List TMRQuad), q.level < TMR_MAX_LEVEL ∧
      hside q.level ∣ q.x ∧ hside q.level ∣ q.y) ∧
    ((⟨0, 0, 0⟩ : TMRQuad) ∈ coarsenQuad (refineUniform [⟨0, 0, 0⟩]) ↔
      (⟨0, 0, 0⟩ : TMRQuad) ∈ ([⟨0, 0, 0⟩] : List TMRQuad)) :=
  ⟨by decide, C5_coarsen_refine_roundtrip [⟨0, 0, 0⟩] (by decide) ⟨0, 0, 0⟩⟩

/-- C8: `refine` with a null levels argument replaces every leaf by its
four children exactly once — every new leaf is a child of an old leaf with
level exactly one higher, every child of an old leaf appears, the leaf
count quadruples — and the call is purely local: the leaf sets of all
other ranks are unchanged. -/
theorem C8_refine_uniform (W : Nat → List TMRQuad) (r : Nat) :
    (∀ c ∈ refineUniform (W r), ∃ q ∈ W r,
      c ∈ childList q ∧ c.level = q.level + 1) ∧
    (∀ q ∈ W r, ∀ c ∈ childList q, c ∈ refineUniform (W r)) ∧
    (refineUniform (W r)).length = 4 * (W r).length ∧
    (∀ s, s ≠ r → refineForest W r s = W s) ∧
    refineForest W r r = refineUniform (W r) := by
  refine ⟨?_, ?_, refineUniform_length (W r), ?_, ?_⟩
  · intro c hc
    rw [refineUniform, List.mem_flatMap] at hc
    obtain ⟨q, hq, hcq⟩ := hc
    exact ⟨q, hq, hcq, childList_level q c hcq⟩
  · intro q hq c hc
    rw [refineUniform, List.mem_flatMap]
    exact ⟨q, hq, hc⟩
  · intro s hs
    rw [refineForest]
    exact if_neg hs
  · rw [refineForest]
    simp

/-- Witness for C8 at a two-rank forest, rank 0 refining. -/
theorem C8_witness :
    (refineUniform (sampleRanks 0)).length = 4 * (sampleRanks 0).length ∧
    refineForest sampleRanks 0 1 = sampleRanks 1 :=
  ⟨(C8_refine_uniform sampleRanks 0).2.2.1,
   (C8_refine_uniform sampleRanks 0).2.2.2.1 1 (by decide)⟩

/-! ### Node numbering (claim C6) -/

theorem assignNodes_eq (o : Nat) (cs : List Nat) :
    assignNodes o cs = List.range' o cs.sum := by
  induction cs generalizing o with
  | nil => simp [assignNodes]
  | cons c cs ih =>
    show List.range' o c ++ assignNodes (o + c) cs = List.range' o (c :: cs).sum
    rw [ih]
    have h := List.range'_append o c cs.sum 1
    simp only [Nat.one_mul] at h
    rw [h, List.sum_cons, Nat.add_comm c cs.sum]

theorem sum_take_le (l : List Nat) (i j : Nat) (h : i ≤ j) :
    (l.take i).sum ≤ (l.take j).sum := by
  have hj : j = i + (j - i) := by omega
  rw [hj, List.take_add, List.sum_append]
  omega

/-- C6: after `createNodes`, the global node indices assigned across all
ranks are exactly the integers `[0, N_total)` with no gaps and no
duplicates, and `getOwnedNodeRange` returns the non-decreasing per-rank
prefix-sum partition of that range, starting at 0 and ending at
`N_total`. -/
theorem C6_createNodes_numbering (counts : List Nat) :
    assignNodes 0 counts = List.range counts.sum ∧
    (getOwnedNodeRange counts).length = counts.length + 1 ∧
    (∀ r, r ≤ counts.length →
      (getOwnedNodeRange counts)[r]? = some ((counts.take r).sum)) ∧
    (getOwnedNodeRange counts)[0]? = some 0 ∧
    (getOwnedNodeRange counts)[counts.length]? = some counts.sum ∧
    (∀ i j, i ≤ j → (counts.take i).sum ≤ (counts.take j).sum) := by
  have hget : ∀ r, r ≤ counts.length →
      (getOwnedNodeRange counts)[r]? = some ((counts.take r).sum) := by
    intro r hr
    have hr1 : r < counts.length + 1 := by omega
    simp [getOwnedNodeRange, List.getElem?_map, List.getElem?_range, hr1]
  refine ⟨?_, ?_, hget, ?_, ?_, fun i j h => sum_take_le counts i j h⟩
  · rw [assignNodes_eq, List.range_eq_range']
  · simp [getOwnedNodeRange]
  · have h0 := hget 0 (Nat.zero_le _)
    simpa using h0
  · have hl := hget counts.length (Nat.le_refl _)
    rw [List.take_length] at hl
    exact hl

/-- Witness for C6 at the per-rank counts `[3, 0, 2]`. -/
theorem C6_witness :
    assignNodes 0 [3, 0, 2] = List.range ([3, 0, 2] : List Nat).sum ∧
    (getOwnedNodeRange [3, 0, 2])[1]? = some ((([3, 0, 2] : List Nat).take 1).sum) ∧
    (([3, 0, 2] : List Nat).take 1).sum ≤ (([3, 0, 2] : List Nat).take 3).sum :=
  ⟨(C6_createNodes_numbering [3, 0, 2]).1,
   (C6_createNodes_numbering [3, 0, 2]).2.2.1 1 (by decide),
   (C6_createNodes_numbering [3, 0, 2]).2.2.2.2.2 1 3 (by decide)⟩

/-! ### Repartition (claim C7) -/

theorem indicator_sum (n k : Nat) (h : k ≤ n) :
    ((List.range n).map (fun r => if r < k then 1 else 0)).sum = k := by
  induction n with
  | zero =>
    have hk : k = 0 := by omega
    simp [hk]
  | succ m ih =>
    rw [List.range_succ, List.map_append, List.sum_append]
    by_cases hk : k ≤ m
    · rw [ih hk]
      have hm : ¬ m < k := by omega
      simp [hm]
    · have hk1 : k = m + 1 := by omega
      subst hk1
      have hall : ((List.range m).map (fun r => if r < m + 1 then 1 else 0))
          = (List.range m).map (fun _ => 1) := by
        apply List.map_congr_left
        intro a ha
        rw [List.mem_range] at ha
        have : a < m + 1 := by omega
        simp [this]
      rw [hall]
      simp

theorem sliceCounts_sum (T N : Nat) (h : 0 < N) : (sliceCounts T N).sum = T := by
  have hsplit : ∀ n : Nat, ((List.range n).map
      (fun r => T / N + if r < T % N then 1 else 0)).sum
      = n * (T / N) +
        ((List.range n).map (fun r => if r < T % N then 1 else 0)).sum := by
    intro n
    induction n with
    | zero => simp
    | succ m ih =>
      rw [List.range_succ, List.map_append, List.sum_append,
        List.map_append, List.sum_append, ih]
      simp only [List.map_cons, List.map_nil, List.sum_cons, List.sum_nil]
      ring
  unfold sliceCounts
  rw [hsplit N, indicator_sum N (T % N) (Nat.le_of_lt (Nat.mod_lt T h))]
  have hdm := Nat.div_add_mod T N
  rw [Nat.mul_comm] at hdm ⊢
  exact hdm

theorem splitSlices_flatten (cs : List Nat) (L : List TMRQuad) :
    (splitSlices cs L).flatten = L.take cs.sum := by
  induction cs generalizing L with
  | nil => simp [splitSlices]
  | cons c cs ih =>
    show (L.take c :: splitSlices cs (L.drop c)).flatten = L.take (c :: cs).sum
    rw [List.flatten_cons, ih, List.sum_cons, List.take_add]

theorem splitSlices_length (cs : List Nat) (L : List TMRQuad) :
    (splitSlices cs L).length = cs.length := by
  induction cs generalizing L with
  | nil => rfl
  | cons c cs ih =>
    show (L.take c :: splitSlices cs (L.drop c)).length = (c :: cs).length
    rw [List.length_cons, List.length_cons, ih]

theorem splitSlices_sizes (cs : List Nat) (L : List TMRQuad) :
    ∀ S ∈ splitSlices cs L, ∃ c ∈ cs, S.length ≤ c := by
  induction cs generalizing L with
  | nil => simp [splitSlices]
  | cons c cs ih =>
    intro S hS
    rcases List.mem_cons.mp hS with h | h
    · refine ⟨c, List.mem_cons_self c cs, ?_⟩
      rw [h, List.length_take]
      omega
    · obtain ⟨d, hd, hSd⟩ := ih (L.drop c) S h
      exact ⟨d, List.mem_cons_of_mem c hd, hSd⟩

theorem sliceCounts_le_ceil (T N : Nat) (h : 0 < N) :
    ∀ c ∈ sliceCounts T N, c ≤ (T + N - 1) / N := by
  intro c hc
  unfold sliceCounts at hc
  rcases List.mem_map.mp hc with ⟨r, hr, hcr⟩
  rw [Nat.le_div_iff_mul_le h]
  have h1 : T / N * N ≤ T := Nat.div_mul_le_self T N
  have h2 := Nat.div_add_mod T N
  rw [Nat.mul_comm] at h2
  by_cases hrk : r < T % N
  · rw [← hcr, if_pos hrk, Nat.add_mul, Nat.one_mul]
    omega
  · rw [← hcr, if_neg hrk, Nat.add_zero]
    omega

/-- C7: repartition conserves the global leaf list (hence the global leaf
count), splits it into exactly `N` per-rank slices, and no rank holds more
than the ceiling of `total / N` leaves. -/
theorem C7_repartition_conservation (N : Nat) (L : List TMRQuad)
    (h : 0 < N) :
    (repartitionQuad N L).flatten = L ∧
    (repartitionQuad N L).length = N ∧
    ((repartitionQuad N L).map List.length).sum = L.length ∧
    (∀ S ∈ repartitionQuad N L, S.length ≤ (L.length + N - 1) / N) := by
  have hflat : (repartitionQuad N L).flatten = L := by
    rw [repartitionQuad, splitSlices_flatten, sliceCounts_sum L.length N h,
      List.take_length]
  refine ⟨hflat, ?_, ?_, ?_⟩
  · rw [repartitionQuad, splitSlices_length]
    simp [sliceCounts]
  · rw [← List.length_flatten, hflat]
  · intro S hS
    rw [repartitionQuad] at hS
    obtain ⟨c, hc, hSc⟩ := splitSlices_sizes (sliceCounts L.length N) L S hS
    exact Nat.le_trans hSc (sliceCounts_le_ceil L.length N h c hc)

/-- Witness for C7: five leaves over two ranks. -/
theorem C7_witness :
    (repartitionQuad 2 sampleLeaves).flatten = sampleLeaves ∧
    (repartitionQuad 2 sampleLeaves).length = 2 :=
  ⟨(C7_repartition_conservation 2 sampleLeaves (by decide)).1,
   (C7_repartition_conservation 2 sampleLeaves (by decide)).2.1⟩

/-- Witness for C9 at a concrete three-entry array with a duplicated index,
whose pairwise index differences all fit in a 32-bit `int`. -/
theorem C9_witness :
    List.Pairwise (fun a b : TMRIndexWeight => a.index < b.index)
      (TMRIndexWeight.uniqueSort [⟨3, 1/2⟩, ⟨1, 1/4⟩, ⟨3, 1/4⟩]) ∧
    (TMRIndexWeight.uniqueSort [⟨3, 1/2⟩, ⟨1, 1/4⟩, ⟨3, 1/4⟩]).length ≤
      ([⟨3, 1/2⟩, ⟨1, 1/4⟩, ⟨3, 1/4⟩] : List TMRIndexWeight).length :=
  ⟨(C9_uniqueSort_spec [⟨3, 1/2⟩, ⟨1, 1/4⟩, ⟨3, 1/4⟩] (by decide)).1,
   (C9_uniqueSort_spec [⟨3, 1/2⟩, ⟨1, 1/4⟩, ⟨3, 1/4⟩] (by decide)).2.2.2.2⟩
